import Mathlib

/-!
Shallow embedding of the bitcode core codecs: the page-boundary-aware
wild-copy primitive, the sequence (vector) encoder with its adaptive
vectored dispatch, the sequence wire format, the decoder populate chain,
and the bit-packed boolean codec, together with proofs of the
specification's properties about them.

Collaborators that live outside the provided sources (`crate::fast`,
`crate::length`, `crate::pack`) are modelled from the specification's
interface contracts; each such definition is marked
`Modelled from the spec:`.
-/

/-- Byte-addressed memory: one natural number (a byte value) per address.
The raw-pointer code in src/derive/vec.rs reads and writes such memory. -/
def Mem : Type := Nat → Nat

/-- Copy of `cnt` bytes from `src` to `dst`, reading the pre-call memory
(`std::ptr::copy_nonoverlapping` on `u8`; `copy_nonoverlapping_unaligned`
of `n` elements of byte size `sizeT`, src/derive/vec.rs:82-88, is
`copyBytes mem src dst (n * sizeT)`). -/
def copyBytes (mem : Mem) (src dst cnt : Nat) : Mem :=
  fun a => if dst ≤ a ∧ a < dst + cnt then mem (src + (a - dst)) else mem a

/-- The bound `page_size - read_size` of src/derive/vec.rs:53, computed in
release-mode 64-bit `usize` arithmetic, which wraps modulo `2 ^ 64` when
`read_size` exceeds the 4096-byte page size. -/
def pageHeadroomBound (readSize : Nat) : Nat :=
  (2 ^ 64 + 4096 - readSize) % 2 ^ 64

/-- The `within_page` test of the wild copy (src/derive/vec.rs:51-62): the
source address's offset within its 4096-byte page is compared against
`page_size - read_size` where `read_size = N * sizeT` bytes, and the result
is conjoined with the compile-time `cfg!` conjunction (not miri, not
debug-assertions, x86/x86_64/aarch64), abstracted as `buildOK`. -/
def withinPage (sizeT N srcAddr : Nat) (buildOK : Bool) : Bool :=
  decide (srcAddr % 4096 < pageHeadroomBound (N * sizeT)) && buildOK

/-- The `unsafe_wild_copy` macro (src/derive/vec.rs:46-76) on elements of
byte size `sizeT`: when `within_page` holds it writes a full unaligned
`[T; N]` block (`N * sizeT` bytes) read from `src`; otherwise it calls
`copy_nonoverlapping_unaligned(src, dst, n)` (`n * sizeT` bytes). -/
def wildCopy (sizeT N : Nat) (buildOK : Bool) (mem : Mem) (src dst n : Nat) : Mem :=
  if withinPage sizeT N src buildOK then copyBytes mem src dst (N * sizeT)
  else copyBytes mem src dst (n * sizeT)

/-- The memoized vectored bulk-copy strategy stored in
`VecEncoder::vectored_impl` (src/derive/vec.rs:15): either
`encode_vectored_max_len::<I, N>` for a block width `N`, or
`encode_vectored_fallback`. The raw function pointer of the source is
modelled, following the spec's design note, as a tagged variant. -/
inductive VectoredImpl where
  | maxLen (N : Nat) : VectoredImpl
  | fallback : VectoredImpl
deriving DecidableEq

/-- Modelled from the spec: `VecImpl<T>` (crate::fast, not under src/), the
primitive fast-path buffer — a growable typed buffer whose logically
written prefix is `data` (everything up to the end pointer) and whose
reserved capacity is `cap` (spec sections 3 and 4.1). -/
structure VecImplM (α : Type) where
  data : List α
  cap : Nat
deriving DecidableEq

/-- Modelled from the spec: `VecImpl::reserve(n)` pre-allocates capacity for
at least `n` elements beyond the written prefix (spec section 4.1). -/
def VecImplM.reserve {α : Type} (v : VecImplM α) (n : Nat) : VecImplM α :=
  { v with cap := max v.cap (v.data.length + n) }

/-- Exact-length append to the primitive buffer: reserve `n`, copy exactly
`n` elements at the end pointer, then advance the end pointer past them
(src/derive/vec.rs:144-147 and 158-164). -/
def VecImplM.pushSlice {α : Type} (v : VecImplM α) (sl : List α) : VecImplM α :=
  let r := v.reserve sl.length
  { r with data := r.data ++ sl }

/-- State of `VecEncoder<T>` for an element type on the primitive fast path
(src/derive/vec.rs:10-16): the pending lengths buffer (the `LengthEncoder`
of crate::length, modelled from the spec as the list of lengths encoded so
far), the element buffer, and the cached strategy `vectored_impl`. -/
structure VecEncoderM (α : Type) where
  lengths : List Nat
  elements : VecImplM α
  vectoredImpl : Option VectoredImpl

/-- The escalation table of `encode_vectored_max_len`
(src/derive/vec.rs:117-126): from block width `N`, double the width while
the element byte size keeps the new block at or below 64 bytes, otherwise
switch to the precise-copy fallback. -/
def escalateImpl (s N : Nat) : VectoredImpl :=
  if N = 1 then (if s ≤ 32 then VectoredImpl.maxLen 2 else VectoredImpl.fallback)
  else if N = 2 then (if s ≤ 16 then VectoredImpl.maxLen 4 else VectoredImpl.fallback)
  else if N = 4 then (if s ≤ 8 then VectoredImpl.maxLen 8 else VectoredImpl.fallback)
  else if N = 8 then (if s ≤ 4 then VectoredImpl.maxLen 16 else VectoredImpl.fallback)
  else if N = 16 then (if s ≤ 2 then VectoredImpl.maxLen 32 else VectoredImpl.fallback)
  else if N = 32 then (if s ≤ 1 then VectoredImpl.maxLen 64 else VectoredImpl.fallback)
  else VectoredImpl.fallback

/-- `VecEncoder::encode_vectored_fallback` (src/derive/vec.rs:137-149): for
every slice of the batch the length is encoded and the slice is copied
exactly (reserve `n`, copy `n`, advance the end pointer), with no
over-read. The `LengthEncoder::encode_vectored_fallback` driver
(crate::length, not under src/) is modelled from the spec as encoding each
slice's length and invoking the copy closure on each slice. -/
def encodeVectoredFallback {α : Type} (st : VecEncoderM α) (batch : List (List α)) :
    VecEncoderM α :=
  { st with
    lengths := st.lengths ++ batch.map List.length,
    elements := batch.foldl VecImplM.pushSlice st.elements }

/-- `VecEncoder::encode_vectored_max_len::<I, N>` (src/derive/vec.rs:93-133):
reserve `size_hint * N` elements up front; if every slice of the batch has
length at most `N`, wild-copy each slice at block width `N` advancing a
local `dst` pointer by the slice's length, encode the lengths, and commit
by `set_end_ptr(dst)`; otherwise store the escalated strategy in
`vectored_impl` and re-run it on the whole batch (the end pointer is not
moved on this path, so nothing is committed). The driver
`LengthEncoder::encode_vectored_max_len` (crate::length, not under src/) is
modelled from the spec and the safety comment at src/derive/vec.rs:110:
it skips the copy closure for empty slices, ensures every processed length
is at most `N`, reports whether some length exceeded `N`, and commits the
batch's lengths only when none did. -/
def encodeVectoredMaxLen {α : Type} (s : Nat) (st : VecEncoderM α) (batch : List (List α))
    (N : Nat) : VecEncoderM α :=
  let st1 : VecEncoderM α := { st with elements := st.elements.reserve (batch.length * N) }
  if ∀ sl ∈ batch, sl.length ≤ N then
    { st1 with
      lengths := st1.lengths ++ batch.map List.length,
      elements := { st1.elements with data := st1.elements.data ++ batch.flatten } }
  else
    match h : escalateImpl s N with
    | VectoredImpl.maxLen N2 =>
        encodeVectoredMaxLen s { st1 with vectoredImpl := some (VectoredImpl.maxLen N2) }
          batch N2
    | VectoredImpl.fallback =>
        encodeVectoredFallback { st1 with vectoredImpl := some VectoredImpl.fallback } batch
termination_by 64 - N
decreasing_by
  unfold escalateImpl at h
  split_ifs at h <;> simp_all <;> omega

/-- Dispatch through a `vectored_impl` value (the indirect call
`f(self, i)` at src/derive/vec.rs:127-128 and 198-200). -/
def runVectoredImpl {α : Type} (s : Nat) (v : VectoredImpl) (st : VecEncoderM α)
    (batch : List (List α)) : VecEncoderM α :=
  match v with
  | VectoredImpl.maxLen N => encodeVectoredMaxLen s st batch N
  | VectoredImpl.fallback => encodeVectoredFallback st batch

/-- `VecEncoder::encode_vectored` on the primitive fast path
(src/derive/vec.rs:174-208): on the first call (`vectored_impl` not yet
set) select `encode_vectored_max_len` at block width
`(8 / size_of::<T>()).max(1)`, store it, and run it; on later calls run
the stored strategy directly. -/
def encodeVectored {α : Type} (s : Nat) (st : VecEncoderM α) (batch : List (List α)) :
    VecEncoderM α :=
  match st.vectoredImpl with
  | none =>
      runVectoredImpl s (VectoredImpl.maxLen (max (8 / s) 1))
        { st with vectoredImpl := some (VectoredImpl.maxLen (max (8 / s) 1)) } batch
  | some v => runVectoredImpl s v st batch

/-- Modelled from the spec: the Length sub-codec's interface contract (spec
section 6; crate::length is not under src/). Its byte encoding of a count
is opaque; `dec_enc` is the consumption contract — decoding the encoding of
`n` from the front of a stream yields `n` and advances exactly past it. -/
structure LengthCodec where
  encLen : Nat → List Nat
  decLen : List Nat → Option (Nat × List Nat)
  dec_enc : ∀ n rest, decLen (encLen n ++ rest) = some (n, rest)

/-- Modelled from the spec: an element sub-codec observed at the `Buffer` /
`View` boundary (spec sections 4.1-4.2; element codecs other than the
boolean one are not under src/). `encElems xs` is what `collect_into`
emits after encoding the items of `xs` in order; `populateElems input n`
consumes exactly `n` items' worth of bytes and yields the `n` values the
subsequent decode calls return. `enc_nil` is the destructive-drain
contract for a fresh encoder, and `populate_enc` is the round-trip /
exact-consumption contract. -/
structure ElemCodec (α : Type) where
  encElems : List α → List Nat
  populateElems : List Nat → Nat → Option (List α × List Nat)
  enc_nil : encElems [] = []
  populate_enc : ∀ xs rest, populateElems (encElems xs ++ rest) xs.length = some (xs, rest)

/-- A concrete Length sub-codec instance used for concrete evaluations: one
number of the stream per length. The spec keeps the real encoding opaque;
any instance satisfying the contract may stand in for it. -/
def natLengthCodec : LengthCodec where
  encLen n := [n]
  decLen input :=
    match input with
    | [] => none
    | b :: rest => some (b, rest)
  dec_enc := fun n rest => rfl

/-- A concrete element codec for single-byte elements (each element is one
byte of the stream, copied verbatim), used for concrete evaluations. -/
def byteElemCodec : ElemCodec Nat where
  encElems xs := xs
  populateElems input n :=
    if n ≤ input.length then some (input.take n, input.drop n) else none
  enc_nil := rfl
  populate_enc := by
    intro xs rest
    simp

/-- Bytes that leave a `VecEncoder` for one encoded slice / `Vec`
(src/derive/vec.rs:152-172 and 278-282): the length of the slice through
the Length sub-codec, then the elements in order; `collect_into`
(src/derive/vec.rs:30-33) emits all length bytes before all element
bytes. -/
def encodeVecBytes {α : Type} (L : LengthCodec) (E : ElemCodec α) (v : List α) : List Nat :=
  L.encLen v.length ++ E.encElems v

/-- Bytes for one encoded `VecDeque` (src/derive/vec.rs:355-357,
`encode_body_internal_iteration`): length, then the elements iterated front
to back. -/
def encodeVecDequeBytes {α : Type} (L : LengthCodec) (E : ElemCodec α) (v : List α) :
    List Nat :=
  L.encLen v.length ++ E.encElems v

/-- Bytes for one encoded `LinkedList` (src/derive/vec.rs:348-350,
`encode_body`): length, then the elements iterated front to back. -/
def encodeLinkedListBytes {α : Type} (L : LengthCodec) (E : ElemCodec α) (v : List α) :
    List Nat :=
  L.encLen v.length ++ E.encElems v

/-- Bytes for one encoded `BTreeSet` (src/derive/vec.rs:330-332,
`encode_body`): the set's size, then its elements in ascending iteration
order. -/
def encodeBTreeSetBytes {α : Type} [LinearOrder α] (L : LengthCodec) (E : ElemCodec α)
    (s : Finset α) : List Nat :=
  L.encLen s.card ++ E.encElems (s.sort (· ≤ ·))

/-- Bytes for one encoded `HashSet` (src/derive/vec.rs:337-341,
`encode_body_internal_iteration`): the set's size, then its elements in the
hash table's unspecified iteration order, given here as the list `iter`. -/
def encodeHashSetBytes {α : Type} (L : LengthCodec) (E : ElemCodec α) (iter : List α) :
    List Nat :=
  L.encLen iter.length ++ E.encElems iter

/-- Bytes for one encoded `BinaryHeap` (src/derive/vec.rs:319-321,
`encode_body`): the heap's size, then its elements in the heap's
unspecified iteration order, given here as the list `iter`. -/
def encodeBinaryHeapBytes {α : Type} (L : LengthCodec) (E : ElemCodec α) (iter : List α) :
    List Nat :=
  L.encLen iter.length ++ E.encElems iter

/-- One decode session for a single sequence: `VecDecoder::populate`
(src/derive/vec.rs:228-233) reads the length, then populates the element
sub-decoder with that count; `Decoder<Vec<T>>::decode_in_place`
(src/derive/vec.rs:292-317) then produces the elements in order. Returns
the decoded items and the unconsumed remainder of the input. -/
def decodeListBytes {α : Type} (L : LengthCodec) (E : ElemCodec α) (input : List Nat) :
    Option (List α × List Nat) :=
  match L.decLen input with
  | none => none
  | some (n, rest) => E.populateElems rest n

/-- Decoding a `BTreeSet` (src/derive/vec.rs:333-335, `decode_body`): decode
the elements and collect them into the set. -/
def decodeBTreeSetBytes {α : Type} [DecidableEq α] (L : LengthCodec) (E : ElemCodec α)
    (input : List Nat) : Option (Finset α × List Nat) :=
  (decodeListBytes L E input).map fun p => (p.1.toFinset, p.2)

/-- Decoding a `HashSet` (src/derive/vec.rs:342-346, `decode_body`): decode
the elements and collect them into the set. -/
def decodeHashSetBytes {α : Type} [DecidableEq α] (L : LengthCodec) (E : ElemCodec α)
    (input : List Nat) : Option (Finset α × List Nat) :=
  (decodeListBytes L E input).map fun p => (p.1.toFinset, p.2)

/-- Decoding a `BinaryHeap` (src/derive/vec.rs:322-328): decode a `Vec` and
heapify it; the heap's content is its multiset of elements. -/
def decodeBinaryHeapBytes {α : Type} (L : LengthCodec) (E : ElemCodec α)
    (input : List Nat) : Option (Multiset α × List Nat) :=
  (decodeListBytes L E input).map fun p => ((p.1 : Multiset α), p.2)

/-- The byte value packing up to eight booleans, least significant bit
first: the boolean of index `i` lands at bit position `i % 8` of its
byte. -/
def byteOfBits : List Bool → Nat
  | [] => 0
  | b :: t => (if b then 1 else 0) + 2 * byteOfBits t

/-- `k` booleans unpacked from one byte, least significant bit first. -/
def bitsOfByte : Nat → Nat → List Bool
  | _, 0 => []
  | m, k + 1 => decide (m % 2 = 1) :: bitsOfByte (m / 2) k

/-- Modelled from the spec: `pack_bools` (crate::pack, not under src/) —
compress a boolean sequence into `ceil(count / 8)` packed bytes, the
boolean of index `i` at byte `i / 8`, bit position `i % 8` (spec sections
4.4 and 6; the least-significant-bit-first order is the internal
convention fixed here). -/
def pack_bools (bs : List Bool) : List Nat :=
  if bs = [] then [] else byteOfBits (bs.take 8) :: pack_bools (bs.drop 8)
termination_by bs.length
decreasing_by
  simp
  cases bs with
  | nil => simp_all
  | cons b t => simp

/-- Modelled from the spec: `unpack_bools` (crate::pack, not under src/) —
expand `length` booleans out of the front of the packed input, consuming
exactly `ceil(length / 8)` bytes and failing when fewer are available
(spec sections 4.4, 6 and 7). Returns the unpacked booleans (the
`BoolDecoder`'s owned view) and the unconsumed remainder of the input. -/
def unpack_bools (input : List Nat) (n : Nat) : Option (List Bool × List Nat) :=
  if n = 0 then some ([], input)
  else
    match input with
    | [] => none
    | b :: rest =>
        if n ≤ 8 then some (bitsOfByte b n, rest)
        else
          match unpack_bools rest (n - 8) with
          | none => none
          | some (bs, r) => some (bitsOfByte b 8 ++ bs, r)

/-- `BoolEncoder::collect_into` (src/bool.rs:21-25): pack the pending
unpacked booleans into bytes and clear the unpacked buffer. Returns the
emitted bytes and the encoder's new state. -/
def boolCollect (st : List Bool) : List Nat × List Bool :=
  (pack_bools st, [])

/-- `BoolDecoder::decode` called `n` times (src/bool.rs:53-57) reads the
first `n` booleans of the populated view in order. -/
def boolDecodeN (view : List Bool) (n : Nat) : List Bool :=
  view.take n

/-- `VecEncoder::collect_into` (src/derive/vec.rs:30-33): drain the lengths
buffer first, then the element buffer, concatenating their bytes in that
order; both sub-buffers are cleared (drain is destructive, spec section 6;
`LengthEncoder::collect_into` of crate::length is modelled from the spec as
emitting the encoding of each pending length in order). The element buffer
here is a primitive byte buffer whose raw contents are its bytes. Returns
the emitted bytes and the encoder's new state. -/
def vecEncoderCollect (L : LengthCodec) (st : VecEncoderM Nat) : List Nat × VecEncoderM Nat :=
  ((st.lengths.map L.encLen).flatten ++ st.elements.data,
   { st with lengths := [], elements := { st.elements with data := [] } })

/-- An observable operation on an element encoder: a capacity reservation
or a single-value encode. -/
inductive ElemOp (α : Type) where
  | reserve (n : Nat) : ElemOp α
  | encode (a : α) : ElemOp α
deriving DecidableEq

/-- The element-encoder operations issued by `encode_body` /
`encode_body_internal_iteration` (src/derive/vec.rs:235-263), the encoders
of `BinaryHeap`, `BTreeSet`, `HashSet`, `LinkedList` and `VecDeque`, for a
collection iterating as `v`: nothing at all when the collection is empty
(the `NonZeroUsize::new(n)` guard), otherwise one reservation of `n`
followed by `n` encodes. -/
def encodeBodyOps {α : Type} (v : List α) : List (ElemOp α) :=
  if v.length = 0 then [] else ElemOp.reserve v.length :: v.map ElemOp.encode

/-- The element-buffer operations issued by the primitive fast path of
`Encoder<[T]>::encode` (src/derive/vec.rs:158-164): an unconditional
`reserve(n)` on the primitive buffer — with no guard for `n = 0` — and a
bulk copy (no per-element encode calls). -/
def encodeSlicePrimOps {α : Type} (v : List α) : List (ElemOp α) :=
  [ElemOp.reserve v.length]

/-- `VecDecoder::populate` (src/derive/vec.rs:228-233): populate the lengths
sub-decoder from the input with `count` lengths (the `?` operator returns
its error immediately), then populate the element sub-decoder with
`lengths.length()`, the total element count — modelled from the spec as
the sum of the populated lengths. `Lpop` and `Epop` are the collaborators'
populate operations, each returning its decoded items and the advanced
input. -/
def vecDecoderPopulate {α : Type}
    (Lpop : List Nat → Nat → Except String (List Nat × List Nat))
    (Epop : List Nat → Nat → Except String (List α × List Nat))
    (input : List Nat) (count : Nat) :
    Except String ((List Nat × List α) × List Nat) :=
  match Lpop input count with
  | Except.error e => Except.error e
  | Except.ok (lens, input1) =>
      match Epop input1 lens.sum with
      | Except.error e => Except.error e
      | Except.ok (elems, input2) => Except.ok ((lens, elems), input2)

/-- `count` collection-decode calls after a populate: each reads the next
length `n` from the lengths sub-decoder and then takes `n` elements from
the element sub-decoder (src/derive/vec.rs:292-317). `none` models an
out-of-bounds unchecked read, which a successful populate must rule out. -/
def decodeSession {α : Type} : Nat → List Nat × List α → Option (List (List α) × (List Nat × List α))
  | 0, st => some ([], st)
  | k + 1, (lens, elems) =>
      match lens with
      | [] => none
      | n :: lens1 =>
          if n ≤ elems.length then
            match decodeSession k (lens1, elems.drop n) with
            | none => none
            | some (vs, st) => some (elems.take n :: vs, st)
          else none

/-- A concrete populate operation for concrete evaluations: items are single
numbers of the stream taken from the front, with a validation error when
the input is too short. -/
def takePopulate (input : List Nat) (c : Nat) : Except String (List Nat × List Nat) :=
  if c ≤ input.length then Except.ok (input.take c, input.drop c)
  else Except.error "insufficient input"

theorem sum_le_length_mul (l : List Nat) (N : Nat) (h : ∀ x ∈ l, x ≤ N) :
    l.sum ≤ l.length * N := by
  induction l with
  | nil => simp
  | cons a t ih =>
      have ha : a ≤ N := h a (List.mem_cons_self a t)
      have ht : t.sum ≤ t.length * N := ih fun x hx => h x (List.mem_cons_of_mem a hx)
      simp only [List.sum_cons, List.length_cons]
      calc a + t.sum ≤ N + t.length * N := Nat.add_le_add ha ht
        _ = (t.length + 1) * N := by ring

theorem foldl_pushSlice {α : Type} (batch : List (List α)) :
    ∀ v : VecImplM α, (batch.foldl VecImplM.pushSlice v).data = v.data ++ batch.flatten := by
  induction batch with
  | nil => intro v; simp
  | cons sl t ih =>
      intro v
      simp only [List.foldl_cons, List.flatten_cons, ih, VecImplM.pushSlice, VecImplM.reserve]
      simp [List.append_assoc]

theorem decodeListBytes_encode {α : Type} (L : LengthCodec) (E : ElemCodec α) (v : List α) :
    decodeListBytes L E (L.encLen v.length ++ E.encElems v) = some (v, []) := by
  unfold decodeListBytes
  rw [L.dec_enc]
  have h := E.populate_enc v []
  simpa using h

theorem bitsOfByte_byteOfBits (l : List Bool) : bitsOfByte (byteOfBits l) l.length = l := by
  induction l with
  | nil => rfl
  | cons b t ih =>
      simp only [byteOfBits, List.length_cons, bitsOfByte]
      have hmod : decide (((if b = true then 1 else 0) + 2 * byteOfBits t) % 2 = 1) = b := by
        cases b <;> simp
      have hdiv : ((if b = true then 1 else 0) + 2 * byteOfBits t) / 2 = byteOfBits t := by
        cases b
        · show (0 + 2 * byteOfBits t) / 2 = byteOfBits t
          omega
        · show (1 + 2 * byteOfBits t) / 2 = byteOfBits t
          omega
      rw [hmod, hdiv, ih]

theorem unpack_pack_aux :
    ∀ (n : Nat) (bs : List Bool), bs.length = n →
      ∀ rest, unpack_bools (pack_bools bs ++ rest) n = some (bs, rest) := by
  intro n
  induction n using Nat.strong_induction_on with
  | _ n ih =>
    intro bs hlen rest
    by_cases hbs : bs = []
    · subst hbs
      simp only [List.length_nil] at hlen
      subst hlen
      rw [pack_bools, if_pos rfl, List.nil_append, unpack_bools.eq_def, if_pos rfl]
    · have hpos : 0 < bs.length := List.length_pos.mpr hbs
      rw [pack_bools, if_neg hbs]
      simp only [List.cons_append]
      rw [unpack_bools]
      rw [if_neg (by omega)]
      by_cases h8 : n ≤ 8
      · have hdrop : bs.drop 8 = [] := by
          apply List.drop_eq_nil_of_le
          omega
        have htake : bs.take 8 = bs := by
          apply List.take_of_length_le
          omega
        rw [hdrop, htake]
        rw [if_pos h8]
        have hinv := bitsOfByte_byteOfBits bs
        rw [hlen] at hinv
        rw [hinv]
        simp [pack_bools]
      · rw [if_neg h8]
        have hdl : (bs.drop 8).length = n - 8 := by
          rw [List.length_drop, hlen]
        have hrec := ih (n - 8) (by omega) (bs.drop 8) hdl rest
        rw [hrec]
        have htl : (bs.take 8).length = 8 := by
          rw [List.length_take]
          omega
        have hinv := bitsOfByte_byteOfBits (bs.take 8)
        rw [htl] at hinv
        show some (bitsOfByte (byteOfBits (bs.take 8)) 8 ++ bs.drop 8, rest) = some (bs, rest)
        rw [hinv, List.take_append_drop]

theorem unpack_pack (bs : List Bool) (rest : List Nat) :
    unpack_bools (pack_bools bs ++ rest) bs.length = some (bs, rest) :=
  unpack_pack_aux bs.length bs rfl rest

theorem pack_bools_length_aux :
    ∀ (n : Nat) (bs : List Bool), bs.length = n → (pack_bools bs).length = (n + 7) / 8 := by
  intro n
  induction n using Nat.strong_induction_on with
  | _ n ih =>
    intro bs hlen
    by_cases hbs : bs = []
    · subst hbs
      simp only [List.length_nil] at hlen
      subst hlen
      simp [pack_bools]
    · have hpos : 0 < bs.length := List.length_pos.mpr hbs
      rw [pack_bools, if_neg hbs]
      have hdl : (bs.drop 8).length = n - 8 := by
        rw [List.length_drop, hlen]
      have hrec := ih (n - 8) (by omega) (bs.drop 8) hdl
      simp only [List.length_cons, hrec]
      omega

theorem pack_bools_length (bs : List Bool) : (pack_bools bs).length = (bs.length + 7) / 8 :=
  pack_bools_length_aux bs.length bs rfl

theorem takePopulate_ok_length (inp : List Nat) (c : Nat) (lns rest : List Nat)
    (h : takePopulate inp c = Except.ok (lns, rest)) : lns.length = c := by
  unfold takePopulate at h
  split_ifs at h with hc
  · simp only [Except.ok.injEq, Prod.mk.injEq] at h
    obtain ⟨h1, h2⟩ := h
    subst h1
    simp only [List.length_take]
    omega

theorem escalateImpl_eq_maxLen {s N N2 : Nat}
    (h : escalateImpl s N = VectoredImpl.maxLen N2) :
    N2 = 2 * N ∧ 1 ≤ N ∧ N ≤ 32 := by
  unfold escalateImpl at h
  split_ifs at h <;> simp_all <;> omega

theorem encodeVectoredMaxLen_spec {α : Type} (s : Nat) (batch : List (List α)) :
    ∀ (k N : Nat), 64 - N = k → ∀ st : VecEncoderM α,
      (encodeVectoredMaxLen s st batch N).lengths = st.lengths ++ batch.map List.length
      ∧ (encodeVectoredMaxLen s st batch N).elements.data
          = st.elements.data ++ batch.flatten := by
  intro k
  induction k using Nat.strong_induction_on with
  | _ k ih =>
    intro N hk st
    by_cases hall : ∀ sl ∈ batch, sl.length ≤ N
    · rw [encodeVectoredMaxLen]
      rw [if_pos hall]
      exact ⟨rfl, rfl⟩
    · rw [encodeVectoredMaxLen]
      rw [if_neg hall]
      cases hesc : escalateImpl s N with
      | maxLen N2 =>
          obtain ⟨h2, h1, h32⟩ := escalateImpl_eq_maxLen hesc
          have hrec := ih (64 - N2) (by omega) N2 rfl
            { lengths := st.lengths,
              elements := st.elements.reserve (batch.length * N),
              vectoredImpl := some (VectoredImpl.maxLen N2) }
          exact hrec
      | fallback =>
          constructor
          · rfl
          · exact foldl_pushSlice batch _

theorem decodeSession_isSome {α : Type} :
    ∀ (k : Nat) (lens : List Nat) (elems : List α),
      lens.length = k → lens.sum ≤ elems.length →
      (decodeSession k (lens, elems)).isSome = true := by
  intro k
  induction k with
  | zero =>
      intro lens elems h1 h2
      simp [decodeSession]
  | succ k ih =>
      intro lens elems h1 h2
      match lens with
      | n :: lens1 =>
        simp only [List.sum_cons] at h2
        simp only [decodeSession]
        rw [if_pos (by omega)]
        have hrec := ih lens1 (elems.drop n)
          (by simpa using h1)
          (by rw [List.length_drop]; omega)
        cases hc : decodeSession k (lens1, elems.drop n) with
        | none => rw [hc] at hrec; simp at hrec
        | some p =>
            obtain ⟨vs, st⟩ := p
            simp

/-- Claim C2, counterexample to the claim as stated: take single-byte
elements (`sizeT = 1`), block width `N = 8`, a source address whose page
offset is `4088`, an over-read-friendly build, and required length
`n = 3`. The offset leaves exactly `N * sizeT = 8` bytes of headroom
before the page boundary (`4096 - 4088 % 4096 = 8`), so the claim predicts
the unconditional full-block copy; the code compares
`src % 4096 < 4096 - 8 = 4088` strictly, the test fails, and the fallback
exact-length copy runs instead — observably different at byte `dst + 3`. -/
theorem wild_copy_claim_counterexample :
    8 * 1 ≤ 4096 - 4088 % 4096
    ∧ wildCopy 1 8 true (fun a => a) 4088 0 3 = copyBytes (fun a => a) 4088 0 (3 * 1)
    ∧ wildCopy 1 8 true (fun a => a) 4088 0 3 ≠ copyBytes (fun a => a) 4088 0 (8 * 1) := by
  refine ⟨by decide, rfl, fun h => ?_⟩
  have h3 := congrFun h 3
  exact absurd h3 (by decide)

/-- Claim C2 (amended): for every source, destination, block width `N` and
required length `n` with `1 ≤ n ≤ N`, and a block that fits in a page
(`N * sizeT ≤ 4096`, true of every instantiation in the code, where
`N * sizeT ≤ 64`), the wild copy copies a full `N`-element block exactly
when the source offset within its 4096-byte page leaves strictly more
than `N * sizeT` bytes before the page boundary
(`src % 4096 + N * sizeT < 4096`) and the build configuration permits
over-reads; otherwise it performs the exact-length unaligned copy of `n`
elements. In both branches the first `n` elements at `dst` afterwards
equal the first `n` elements at `src` beforehand. -/
theorem wild_copy_branches (sizeT N n src dst : Nat) (mem : Mem) (buildOK : Bool)
    (hn : 1 ≤ n) (hnN : n ≤ N) (hfit : N * sizeT ≤ 4096) :
    (src % 4096 + N * sizeT < 4096 ∧ buildOK = true →
      wildCopy sizeT N buildOK mem src dst n = copyBytes mem src dst (N * sizeT))
    ∧ (¬ (src % 4096 + N * sizeT < 4096 ∧ buildOK = true) →
      wildCopy sizeT N buildOK mem src dst n = copyBytes mem src dst (n * sizeT))
    ∧ (∀ i, i < n * sizeT → wildCopy sizeT N buildOK mem src dst n (dst + i) = mem (src + i)) := by
  have hbound : pageHeadroomBound (N * sizeT) = 4096 - N * sizeT := by
    unfold pageHeadroomBound
    omega
  have hcond : withinPage sizeT N src buildOK = true ↔
      (src % 4096 + N * sizeT < 4096 ∧ buildOK = true) := by
    unfold withinPage
    rw [hbound]
    simp only [Bool.and_eq_true, decide_eq_true_eq]
    constructor
    · intro hw
      exact ⟨by omega, hw.2⟩
    · intro hw
      exact ⟨by omega, hw.2⟩
  have hcopy : ∀ cnt, n * sizeT ≤ cnt → ∀ i, i < n * sizeT →
      copyBytes mem src dst cnt (dst + i) = mem (src + i) := by
    intro cnt hc i hi
    unfold copyBytes
    rw [if_pos ⟨Nat.le_add_right dst i, by omega⟩]
    congr 1
    omega
  refine ⟨?_, ?_, ?_⟩
  · intro hc
    unfold wildCopy
    rw [if_pos (hcond.mpr hc)]
  · intro hc
    unfold wildCopy
    rw [if_neg (fun hw => hc (hcond.mp hw))]
  · intro i hi
    unfold wildCopy
    by_cases hw : withinPage sizeT N src buildOK
    · rw [if_pos hw]
      exact hcopy (N * sizeT) (Nat.mul_le_mul_right sizeT hnN) i hi
    · rw [if_neg hw]
      exact hcopy (n * sizeT) (Nat.le_refl _) i hi

/-- Claim C2 (amended), witness at `sizeT = 1`, `N = 8`, `n = 3`,
`src = 0`, `dst = 5000`, identity memory, over-read-friendly build. -/
theorem wild_copy_branches_witness :
    (1 ≤ 3 ∧ 3 ≤ 8 ∧ 8 * 1 ≤ 4096)
    ∧ ((0 % 4096 + 8 * 1 < 4096 ∧ true = true →
        wildCopy 1 8 true (fun a => a) 0 5000 3 = copyBytes (fun a => a) 0 5000 (8 * 1))
      ∧ (¬ (0 % 4096 + 8 * 1 < 4096 ∧ true = true) →
        wildCopy 1 8 true (fun a => a) 0 5000 3 = copyBytes (fun a => a) 0 5000 (3 * 1))
      ∧ (∀ i, i < 3 * 1 →
        wildCopy 1 8 true (fun a => a) 0 5000 3 (5000 + i) = (fun a => a) (0 + i))) :=
  ⟨⟨by decide, by decide, by decide⟩,
    wild_copy_branches 1 8 3 0 5000 (fun a => a) true (by decide) (by decide) (by decide)⟩

/-- Claim C1: for every supported collection kind — `Vec`, `HashSet`,
`BTreeSet`, `VecDeque`, `LinkedList`, `BinaryHeap` — and every element
type with a codec (any Length sub-codec `L` and element codec `E`
satisfying their interface contracts), decoding the bytes produced by
encoding a value yields a value equal to it under the collection's
natural equality: list equality for `Vec`, `VecDeque` and `LinkedList`
(iteration order is preserved), set equality for `HashSet` (whatever
iteration order `hs` the hash table produced) and `BTreeSet`, and
multiset equality for `BinaryHeap` (whatever iteration order `hp` the
heap produced), since heap element order is not guaranteed. -/
theorem collection_roundtrip {α : Type} [LinearOrder α] [DecidableEq α]
    (L : LengthCodec) (E : ElemCodec α) (v dq ll hs hp : List α) (s : Finset α) :
    decodeListBytes L E (encodeVecBytes L E v) = some (v, [])
    ∧ decodeListBytes L E (encodeVecDequeBytes L E dq) = some (dq, [])
    ∧ decodeListBytes L E (encodeLinkedListBytes L E ll) = some (ll, [])
    ∧ decodeBTreeSetBytes L E (encodeBTreeSetBytes L E s) = some (s, [])
    ∧ decodeHashSetBytes L E (encodeHashSetBytes L E hs) = some (hs.toFinset, [])
    ∧ decodeBinaryHeapBytes L E (encodeBinaryHeapBytes L E hp) = some ((hp : Multiset α), []) := by
  refine ⟨decodeListBytes_encode L E v, decodeListBytes_encode L E dq,
    decodeListBytes_encode L E ll, ?_, ?_, ?_⟩
  · unfold decodeBTreeSetBytes encodeBTreeSetBytes
    rw [← Finset.length_sort (α := α) (· ≤ ·) (s := s)]
    rw [decodeListBytes_encode L E (s.sort (· ≤ ·))]
    simp [Finset.sort_toFinset]
  · unfold decodeHashSetBytes encodeHashSetBytes
    rw [decodeListBytes_encode L E hs]
    simp
  · unfold decodeBinaryHeapBytes encodeBinaryHeapBytes
    rw [decodeListBytes_encode L E hp]
    simp

theorem escalateImpl_doubles {s N : Nat} (hs : 1 ≤ s)
    (hN : N ∈ ([1, 2, 4, 8, 16, 32, 64] : List Nat)) :
    (escalateImpl s N = VectoredImpl.maxLen (2 * N) ↔ 2 * N * s ≤ 64)
    ∧ (escalateImpl s N = VectoredImpl.maxLen (2 * N)
        ∨ escalateImpl s N = VectoredImpl.fallback) := by
  simp only [List.mem_cons, List.not_mem_nil, or_false] at hN
  rcases hN with rfl | rfl | rfl | rfl | rfl | rfl | rfl
  · by_cases hc : s ≤ 32 <;> simp [escalateImpl, hc] <;> omega
  · by_cases hc : s ≤ 16 <;> simp [escalateImpl, hc] <;> omega
  · by_cases hc : s ≤ 8 <;> simp [escalateImpl, hc] <;> omega
  · by_cases hc : s ≤ 4 <;> simp [escalateImpl, hc] <;> omega
  · by_cases hc : s ≤ 2 <;> simp [escalateImpl, hc] <;> omega
  · by_cases hc : s ≤ 1 <;> simp [escalateImpl, hc] <;> omega
  · simp [escalateImpl]
    omega

/-- Claim C3: on a fresh `VecEncoder` (no strategy cached) the first
`encode_vectored` call selects and stores block width
`N = max(8 / size_of(T), 1)`; from a reachable width `N` (the initial
widths and their doublings, `{1, 2, 4, 8, 16, 32, 64}`), when a slice
exceeds `N` the strategy escalates to `2 * N` exactly when
`2 * N * size_of(T) ≤ 64` and otherwise becomes the precise-copy
fallback; and when a strategy is already stored in `vectored_impl`, a
subsequent `encode_vectored` call runs exactly that stored strategy with
no re-derivation from the element size. -/
theorem vectored_strategy_selection (s : Nat) {α : Type}
    (st0 st1 : VecEncoderM α) (batch0 batch1 : List (List α)) (N : Nat) (v : VectoredImpl)
    (hs : 1 ≤ s)
    (hN : N ∈ ([1, 2, 4, 8, 16, 32, 64] : List Nat))
    (h0 : st0.vectoredImpl = none)
    (h1 : st1.vectoredImpl = some v) :
    encodeVectored s st0 batch0
      = encodeVectoredMaxLen s
          { st0 with vectoredImpl := some (VectoredImpl.maxLen (max (8 / s) 1)) }
          batch0 (max (8 / s) 1)
    ∧ (escalateImpl s N = VectoredImpl.maxLen (2 * N) ↔ 2 * N * s ≤ 64)
    ∧ (escalateImpl s N = VectoredImpl.maxLen (2 * N) ∨ escalateImpl s N = VectoredImpl.fallback)
    ∧ encodeVectored s st1 batch1 = runVectoredImpl s v st1 batch1 := by
  refine ⟨?_, (escalateImpl_doubles hs hN).1, (escalateImpl_doubles hs hN).2, ?_⟩
  · unfold encodeVectored
    rw [h0]
    rfl
  · unfold encodeVectored
    rw [h1]

/-- Claim C3, witness: single-byte elements (`s = 1`), fresh and
pre-seeded encoder states, reachable width `N = 32`. -/
theorem vectored_strategy_selection_witness :
    escalateImpl 1 32 = VectoredImpl.maxLen (2 * 32) ↔ 2 * 32 * 1 ≤ 64 :=
  (vectored_strategy_selection 1
    ({ lengths := [], elements := { data := [], cap := 0 }, vectoredImpl := none } :
      VecEncoderM Nat)
    ({ lengths := [], elements := { data := [], cap := 0 },
       vectoredImpl := some (VectoredImpl.maxLen 8) } : VecEncoderM Nat)
    [[5]] [[6]] 32 (VectoredImpl.maxLen 8)
    (by decide) (by decide) rfl rfl).2.1

/-- Claim C4: in `encode_vectored_max_len` at block width `N`, the single
up-front reservation of `size_hint * N` elements covers every wild copy of
the batch: before the `k`-th copy the destination has advanced past the
written prefix by the summed lengths of the first `k` slices (each at most
`N`, empty slices advancing by zero), and `N` further elements still fit
inside the reserved capacity. -/
theorem reservation_covers_wild_copies {α : Type} (st : VecEncoderM α)
    (batch : List (List α)) (N k : Nat)
    (hk : k < batch.length)
    (hle : ∀ sl ∈ batch.take k, sl.length ≤ N) :
    st.elements.data.length + ((batch.take k).map List.length).sum + N
      ≤ (st.elements.reserve (batch.length * N)).cap := by
  have h1 : ∀ x ∈ (batch.take k).map List.length, x ≤ N := by
    intro x hx
    obtain ⟨sl, hsl, hx⟩ := List.mem_map.mp hx
    exact hx ▸ hle sl hsl
  have h2 := sum_le_length_mul ((batch.take k).map List.length) N h1
  have h3 : ((batch.take k).map List.length).length * N ≤ k * N := by
    apply Nat.mul_le_mul_right
    simp [List.length_take]
  have h4 : (k + 1) * N ≤ batch.length * N := Nat.mul_le_mul_right N (by omega)
  have h5 : (k + 1) * N = k * N + N := Nat.succ_mul k N
  have h6 : st.elements.data.length + batch.length * N
      ≤ max st.elements.cap (st.elements.data.length + batch.length * N) :=
    Nat.le_max_right _ _
  show st.elements.data.length + ((batch.take k).map List.length).sum + N
      ≤ max st.elements.cap (st.elements.data.length + batch.length * N)
  omega

/-- Claim C4, witness: empty encoder, batch of two slices of lengths 1 and
2, block width 2, before the second copy (`k = 1`). -/
theorem reservation_covers_wild_copies_witness :
    (({ lengths := [], elements := { data := [], cap := 0 }, vectoredImpl := none } :
        VecEncoderM Nat)).elements.data.length
      + ((([[1], [2, 3]] : List (List Nat)).take 1).map List.length).sum + 2
      ≤ ((({ lengths := [], elements := { data := [], cap := 0 }, vectoredImpl := none } :
        VecEncoderM Nat)).elements.reserve (([[1], [2, 3]] : List (List Nat)).length * 2)).cap :=
  reservation_covers_wild_copies _ _ 2 1 (by decide) (by decide)

/-- Claim C5: `VecDecoder::populate` populates the lengths sub-decoder from
the input first; when that fails the error is returned immediately and the
element sub-decoder is never populated (the result does not depend on the
element populate operation at all); on success the element sub-decoder is
populated with the decoded total element count (`lengths.length()`); and,
under the collaborators' populate contracts (populate reads exactly the
requested number of items), a successful populate leaves states on which
all `count` subsequent decode calls succeed, with no validation deferred
to decode time. -/
theorem vec_decoder_populate_order {α : Type}
    (Lpop : List Nat → Nat → Except String (List Nat × List Nat))
    (Epop Epop2 : List Nat → Nat → Except String (List α × List Nat))
    (inputE : List Nat) (countE : Nat) (e : String)
    (input : List Nat) (count : Nat)
    (lens input1 : List Nat) (elems : List α) (input2 : List Nat)
    (hErr : Lpop inputE countE = Except.error e)
    (hOk : Lpop input count = Except.ok (lens, input1))
    (hEok : Epop input1 lens.sum = Except.ok (elems, input2))
    (hLlen : lens.length = count)
    (hElen : elems.length = lens.sum) :
    vecDecoderPopulate Lpop Epop2 inputE countE = Except.error e
    ∧ vecDecoderPopulate Lpop Epop input count = Except.ok ((lens, elems), input2)
    ∧ (decodeSession count (lens, elems)).isSome = true := by
  refine ⟨?_, ?_, ?_⟩
  · unfold vecDecoderPopulate
    rw [hErr]
  · unfold vecDecoderPopulate
    rw [hOk]
    dsimp only
    rw [hEok]
  · exact decodeSession_isSome count lens elems hLlen (by omega)

/-- Claim C5, witness: the concrete take-from-the-front populate; the error
case on empty input, the success case on `[2, 7, 8]` decoding one
collection of two elements. -/
theorem vec_decoder_populate_order_witness :
    vecDecoderPopulate takePopulate takePopulate [2, 7, 8] 1
      = Except.ok (([2], [7, 8]), []) :=
  (vec_decoder_populate_order takePopulate takePopulate takePopulate
    [] 1 "insufficient input" [2, 7, 8] 1 [2] [7, 8] [7, 8] []
    rfl rfl rfl rfl rfl).2.1

/-- Claim C6: encoding the 3-element sequence `[1, 2, 3]` of single-byte
elements produces exactly the Length sub-codec's encoding of `3` followed
immediately by the raw bytes `1, 2, 3` — `VecEncoder::collect_into` emits
all length bytes before all element bytes — for every Length sub-codec;
decoding that byte stream yields `[1, 2, 3]`. With the concrete one-number
Length sub-codec the stream is `[3, 1, 2, 3]`. -/
theorem concrete_three_roundtrip (L : LengthCodec) :
    encodeVecBytes L byteElemCodec [1, 2, 3] = L.encLen 3 ++ [1, 2, 3]
    ∧ decodeListBytes L byteElemCodec (L.encLen 3 ++ [1, 2, 3]) = some ([1, 2, 3], [])
    ∧ encodeVecBytes natLengthCodec byteElemCodec [1, 2, 3] = [3, 1, 2, 3] :=
  ⟨rfl, decodeListBytes_encode L byteElemCodec [1, 2, 3], rfl⟩

/-- Claim C7, counterexample to the claim as stated: the claim says the
element encoder receives no encode or reserve call when encoding an empty
collection, but `Vec` routes through the slice encoder whose primitive
fast path (src/derive/vec.rs:158-164) has no zero-length guard: for an
empty `Vec` of booleans (`BoolEncoder` exposes the primitive fast path,
src/bool.rs:11-13) the element encoder's buffer still receives a
`reserve(0)` call, so its operation trace is not empty. -/
theorem empty_slice_reserve_counterexample :
    encodeSlicePrimOps ([] : List Bool) = [ElemOp.reserve 0]
    ∧ encodeSlicePrimOps ([] : List Bool) ≠ [] :=
  ⟨rfl, by decide⟩

/-- Claim C7 (amended): for every supported collection kind, encoding a
zero-length collection writes only the Length sub-codec's encoding of zero
and no element bytes; through the iterator-based encode bodies the element
encoder receives no encode and no reserve call, while the `Vec`/slice
primitive fast path issues exactly one `reserve(0)` on the element buffer
(with no effect) and still no encode call and no element bytes; decoding a
zero-length sequence yields the empty collection, consuming nothing beyond
the length bytes and leaving the element sub-decoder untouched. -/
theorem empty_collection_encoding {α : Type} [LinearOrder α] [DecidableEq α]
    (L : LengthCodec) (E : ElemCodec α) (rest : List Nat) :
    encodeVecBytes L E [] = L.encLen 0
    ∧ encodeVecDequeBytes L E [] = L.encLen 0
    ∧ encodeLinkedListBytes L E [] = L.encLen 0
    ∧ encodeBTreeSetBytes L E (∅ : Finset α) = L.encLen 0
    ∧ encodeHashSetBytes L E [] = L.encLen 0
    ∧ encodeBinaryHeapBytes L E [] = L.encLen 0
    ∧ encodeBodyOps ([] : List α) = []
    ∧ encodeSlicePrimOps ([] : List α) = [ElemOp.reserve 0]
    ∧ decodeListBytes L E (L.encLen 0 ++ rest) = some ([], rest)
    ∧ decodeBTreeSetBytes L E (L.encLen 0 ++ rest) = some ((∅ : Finset α), rest)
    ∧ decodeHashSetBytes L E (L.encLen 0 ++ rest) = some ((∅ : Finset α), rest)
    ∧ decodeBinaryHeapBytes L E (L.encLen 0 ++ rest) = some ((0 : Multiset α), rest) := by
  have hdec : decodeListBytes L E (L.encLen 0 ++ rest) = some ([], rest) := by
    unfold decodeListBytes
    rw [L.dec_enc]
    have h := E.populate_enc [] rest
    rw [E.enc_nil] at h
    simpa using h
  refine ⟨?_, ?_, ?_, ?_, ?_, ?_, rfl, rfl, hdec, ?_, ?_, ?_⟩
  · simp [encodeVecBytes, E.enc_nil]
  · simp [encodeVecDequeBytes, E.enc_nil]
  · simp [encodeLinkedListBytes, E.enc_nil]
  · simp [encodeBTreeSetBytes, E.enc_nil]
  · simp [encodeHashSetBytes, E.enc_nil]
  · simp [encodeBinaryHeapBytes, E.enc_nil]
  · simp [decodeBTreeSetBytes, hdec]
  · simp [decodeHashSetBytes, hdec]
  · simp [decodeBinaryHeapBytes, hdec]

/-- Claim C8: for both core `Buffer` implementations — `BoolEncoder` and
`VecEncoder` — and any prior encoder state, draining twice in a row with
no intervening encode calls yields zero bytes the second time: the first
`collect_into` clears all internal buffers, so the second emits nothing. -/
theorem collect_idempotent (L : LengthCodec) (st : VecEncoderM Nat) (bst : List Bool) :
    (boolCollect (boolCollect bst).2).1 = []
    ∧ (vecEncoderCollect L (vecEncoderCollect L st).2).1 = [] := by
  constructor
  · show pack_bools [] = []
    rw [pack_bools, if_pos rfl]
  · rfl

/-- Claim C9: for every boolean sequence of length at most 1000, encoding
each boolean through `BoolEncoder::encode` and collecting yields exactly
`ceil(n / 8)` packed bytes; populating a `BoolDecoder` from those bytes
with length `n` succeeds, consumes exactly the packed bytes, materializes
the original sequence as the decoder's view, and the `n` subsequent
decode calls reproduce the sequence exactly. -/
theorem bool_roundtrip (bs : List Bool) (h : bs.length ≤ 1000) :
    (boolCollect bs).1.length = (bs.length + 7) / 8
    ∧ unpack_bools ((boolCollect bs).1) bs.length = some (bs, [])
    ∧ boolDecodeN bs bs.length = bs := by
  refine ⟨pack_bools_length bs, ?_, List.take_length bs⟩
  have hu := unpack_pack bs []
  rw [List.append_nil] at hu
  exact hu

/-- Claim C9, witness: a 9-boolean sequence packing into two bytes. -/
theorem bool_roundtrip_witness :
    (boolCollect [true, false, true, true, false, false, true, true, false]).1.length
      = (([true, false, true, true, false, false, true, true, false] : List Bool).length + 7) / 8 :=
  (bool_roundtrip [true, false, true, true, false, false, true, true, false] (by decide)).1

/-- Claim C10: when `encode_vectored_max_len` at width `N` meets a slice
longer than `N`, nothing is committed — the end pointer is not advanced
and the lengths are not kept — and the whole call equals running the
escalated strategy (stored into `vectored_impl`) on the same batch with
the element buffer's written prefix unchanged; consequently, after the
retries the encoder holds each batch's element data and lengths exactly
once, with no duplication from any abandoned attempt. -/
theorem escalation_no_duplication {α : Type} (s N : Nat) (st : VecEncoderM α)
    (batch : List (List α)) (hover : ∃ sl ∈ batch, N < sl.length) :
    encodeVectoredMaxLen s st batch N
      = runVectoredImpl s (escalateImpl s N)
          { st with elements := st.elements.reserve (batch.length * N),
                    vectoredImpl := some (escalateImpl s N) } batch
    ∧ (encodeVectoredMaxLen s st batch N).elements.data = st.elements.data ++ batch.flatten
    ∧ (encodeVectoredMaxLen s st batch N).lengths = st.lengths ++ batch.map List.length := by
  have hnall : ¬ ∀ sl ∈ batch, sl.length ≤ N := by
    intro hall
    obtain ⟨sl, hsl, hlen⟩ := hover
    exact absurd (hall sl hsl) (by omega)
  have hspec := encodeVectoredMaxLen_spec s batch (64 - N) N rfl st
  refine ⟨?_, hspec.2, hspec.1⟩
  rw [encodeVectoredMaxLen, if_neg hnall]
  cases hesc : escalateImpl s N with
  | maxLen N2 => rfl
  | fallback => rfl

/-- Claim C10, witness: width 1, a batch whose single slice has length 2. -/
theorem escalation_no_duplication_witness :
    (encodeVectoredMaxLen 1
        ({ lengths := [], elements := { data := [], cap := 0 }, vectoredImpl := none } :
          VecEncoderM Nat) [[7, 8]] 1).elements.data
      = ({ lengths := [], elements := { data := [], cap := 0 }, vectoredImpl := none } :
          VecEncoderM Nat).elements.data ++ ([[7, 8]] : List (List Nat)).flatten :=
  (escalation_no_duplication 1 1 _ [[7, 8]] (by decide)).2.1
